import Mathlib

set_option linter.all false

/-!
Shallow embedding of the Blam datum-array allocator from BlamData.hpp:
the 32-bit handle type DatumIndex, the per-slot header DatumBase, the
allocator state DataArrayBase and its iterator DataIteratorBase.
Machine integers are modelled as Nat with explicit reductions modulo
2 ^ 16 (uint16_t) and 2 ^ 32 (uint32_t) where the C++ types truncate.
Bodies that the header only declares (DataArrayBase::Get,
DataIteratorBase::Next) and the acquire and release operations are
modelled from the specification; each such definition says so in its
doc comment.
-/

namespace Blam

/-- A unique handle used to refer to data (struct DatumIndex,
BlamData.hpp line 12).  The C++ struct holds a single uint32_t field
named Handle; we model it as a Nat that every constructor keeps below
2 ^ 32. -/
structure DatumIndex where
  Handle : Nat
deriving DecidableEq

/-- The default constructor (line 21): creates a null datum index with
Handle 0xFFFFFFFF. -/
def DatumIndex.mkNull : DatumIndex := ⟨0xFFFFFFFF⟩

/-- The static constant DatumIndex::Null (line 15), produced by the
default constructor. -/
def DatumIndex.null : DatumIndex := DatumIndex.mkNull

/-- Creates a datum index from a raw handle (line 24); the uint32_t
parameter reduces its argument modulo 2 ^ 32. -/
def DatumIndex.ofHandle (handle : Nat) : DatumIndex := ⟨handle % 2 ^ 32⟩

/-- Creates a datum index from a salt and an index (lines 27 to 30):
Handle is assigned (salt << 16) | index.  The parameters have the
16-bit types TSalt and TIndex, so both are reduced modulo 2 ^ 16 at
entry, and the 32-bit destination reduces the result modulo 2 ^ 32. -/
def DatumIndex.make (salt index : Nat) : DatumIndex :=
  ⟨((salt % 2 ^ 16) <<< 16 ||| index % 2 ^ 16) % 2 ^ 32⟩

/-- Gets the datum index's salt value (line 36): Handle >> 16, returned
as the 16-bit type TSalt. -/
def DatumIndex.Salt (d : DatumIndex) : Nat := d.Handle >>> 16 % 2 ^ 16

/-- Gets the datum index's index value (line 39): Handle & 0xFFFF,
returned as the 16-bit type TIndex. -/
def DatumIndex.Index (d : DatumIndex) : Nat := (d.Handle &&& 0xFFFF) % 2 ^ 16

/-- The equality operator (line 41): bitwise comparison of the two
32-bit Handle values. -/
def DatumIndex.eqOp (a b : DatumIndex) : Bool := a.Handle == b.Handle

/-- The inequality operator (line 42): negation of the equality
operator. -/
def DatumIndex.neOp (a b : DatumIndex) : Bool := !(DatumIndex.eqOp a b)

/-- The conversion to bool (line 44): true iff the datum index differs
from Null. -/
def DatumIndex.boolOp (d : DatumIndex) : Bool := DatumIndex.neOp d DatumIndex.null

/-- Base for structures in a data array (struct DatumBase, line 49):
a single 16-bit salt field. -/
structure DatumBase where
  salt : Nat
deriving DecidableEq

/-- The DatumBase constructor (line 55); the TSalt parameter reduces
its argument modulo 2 ^ 16. -/
def DatumBase.ofSalt (s : Nat) : DatumBase := ⟨s % 2 ^ 16⟩

/-- Gets the datum's salt value (line 58). -/
def DatumBase.GetSalt (d : DatumBase) : Nat := d.salt

/-- Returns true if the datum is null (line 61): the salt is zero. -/
def DatumBase.IsNull (d : DatumBase) : Bool := d.salt == 0

/-- The state of a data array (struct DataArrayBase, lines 67 to 99).
Only the fields that the allocator algorithms read or write are kept:
MaxCount, DatumSize, the backing store base address Data, the slot
headers (one DatumBase per slot, living at the front of each datum),
the liveness bit array ActiveIndices (one Bool per slot), the resume
cursor NextIndex, the watermark FirstUnallocated, the live-slot count
ActualCount and the salt counter NextSalt.  The diagnostic fields
(Name, Flags, Signature, Allocator, HeaderSize, TotalSize, IsValid,
Alignment, AltNextSalt) take no part in any claim and are omitted. -/
structure DataArrayBase where
  MaxCount : Nat
  DatumSize : Nat
  Data : Nat
  Slots : List DatumBase
  ActiveIndices : List Bool
  NextIndex : Nat
  FirstUnallocated : Nat
  ActualCount : Nat
  NextSalt : Nat
deriving DecidableEq

/-- Gets the address of the datum for a datum index with no validity
check (DataArrayBase::GetAddress, lines 94 to 98): the address is
Data + index.Index() * DatumSize, computed for every handle. -/
def DataArrayBase.GetAddress (a : DataArrayBase) (index : DatumIndex) : Nat :=
  a.Data + index.Index * a.DatumSize

/-- Modelled from the spec: the body of DataArrayBase::Get is only
declared in the reviewed header (line 89).  Per the spec, the checked
lookup returns the slot's datum iff the handle's index is below the
capacity, the slot's stored generation equals the handle's salt, and
that generation is nonzero; otherwise it returns null, reading no
slot outside the array. -/
def DataArrayBase.Get (a : DataArrayBase) (index : DatumIndex) : Option DatumBase :=
  if index.Index < a.MaxCount then
    match a.Slots.get? index.Index with
    | some d => if !d.IsNull && d.GetSalt == index.Salt then some d else none
    | none => none
  else none

/-- Modelled from the spec: the release operation is absent from the
reviewed source.  Per the spec, releasing the null handle, an
out-of-range handle, or a handle whose generation no longer matches
the slot's stored generation is a no-op; otherwise the slot's
generation is cleared to zero, the liveness bit is cleared, the
active count is decremented and the resume cursor is rewound to
min(cursor, slotIndex). -/
def DataArrayBase.Release (a : DataArrayBase) (h : DatumIndex) : DataArrayBase :=
  if DatumIndex.eqOp h DatumIndex.null then a
  else if a.MaxCount ≤ h.Index then a
  else
    match a.Slots.get? h.Index with
    | none => a
    | some d =>
      if d.GetSalt ≠ h.Salt then a
      else
        { a with
            Slots := a.Slots.set h.Index (DatumBase.ofSalt 0)
            ActiveIndices := a.ActiveIndices.set h.Index false
            ActualCount := a.ActualCount - 1
            NextIndex := min a.NextIndex h.Index }

/-- Modelled from the spec: the value the generation counter takes
when Acquire bumps it, wrapping at 16 bits and skipping the value 0
that denotes an empty slot. -/
def nextSaltValue (s : Nat) : Nat :=
  if (s + 1) % 2 ^ 16 = 0 then 1 else (s + 1) % 2 ^ 16

/-- First index at or after start whose liveness bit is clear. -/
def findFreeFrom (bits : List Bool) (start : Nat) : Option Nat :=
  ((bits.drop start).findIdx? (fun b => !b)).map (· + start)

/-- Modelled from the spec: Acquire's free-slot search finds the
lowest free index at or after the resume cursor and falls back to a
scan from the start when that fails. -/
def findFreeSlot (bits : List Bool) (cursor : Nat) : Option Nat :=
  match findFreeFrom bits cursor with
  | some i => some i
  | none => findFreeFrom bits 0

/-- Modelled from the spec: the acquire operation is absent from the
reviewed source.  Per the spec, Acquire finds a free slot (or fails
with the null handle when the array is exhausted); on success it sets
the slot's liveness bit, increments the active count, bumps the
generation counter, stamps the slot's generation, advances the resume
cursor past the allocated index, keeps the first-unallocated
watermark beyond it, and returns the packed handle. -/
def DataArrayBase.Acquire (a : DataArrayBase) : DatumIndex × DataArrayBase :=
  match findFreeSlot a.ActiveIndices a.NextIndex with
  | none => (DatumIndex.null, a)
  | some i =>
    let s := nextSaltValue a.NextSalt
    (DatumIndex.make s i,
      { a with
          Slots := a.Slots.set i (DatumBase.ofSalt s)
          ActiveIndices := a.ActiveIndices.set i true
          NextIndex := i + 1
          FirstUnallocated := max a.FirstUnallocated (i + 1)
          ActualCount := a.ActualCount + 1
          NextSalt := s })

/-- The state after n successive Acquire calls. -/
def DataArrayBase.acquireN (a : DataArrayBase) : Nat → DataArrayBase
  | 0 => a
  | n + 1 => ((a.acquireN n).Acquire).2

/-- A freshly created data array of the given capacity and datum
size: no slot live, every salt zero, all counters zero. -/
def freshArray (c dsize : Nat) : DataArrayBase :=
  ⟨c, dsize, 0, List.replicate c (DatumBase.ofSalt 0), List.replicate c false,
    0, 0, 0, 0⟩

/-- Base struct for an iterator over a data array
(struct DataIteratorBase, lines 152 to 164): the array the iterator
operates on (a pointer in C++, carried by value here), the datum
index of the current datum and the index of the current datum (an int
in C++, hence modelled as Int: it starts at -1). -/
structure DataIteratorBase where
  Array : DataArrayBase
  CurrentDatumIndex : DatumIndex
  CurrentIndex : Int
deriving DecidableEq

/-- The iterator constructor (line 155): binds the array, sets the
current datum index to Null and the current index to -1. -/
def DataIteratorBase.init (a : DataArrayBase) : DataIteratorBase :=
  ⟨a, DatumIndex.null, -1⟩

/-- First index at or after start whose liveness bit is set. -/
def findLiveFrom (a : DataArrayBase) (start : Nat) : Option Nat :=
  ((a.ActiveIndices.drop start).findIdx? (fun b => b)).map (· + start)

/-- Modelled from the spec: the body of DataIteratorBase::Next is only
declared in the reviewed header (line 159).  Per the spec, the advance
operation scans forward from the position after the current index for
the next set liveness bit; on success it updates the current index
and the current datum handle (the slot's stored salt packed with the
slot's index) and returns the datum; once the scan passes capacity it
leaves the iterator at the end sentinel (current index equal to
MaxCount, current handle null) and returns null. -/
def DataIteratorBase.Next (it : DataIteratorBase) :
    Option DatumBase × DataIteratorBase :=
  match findLiveFrom it.Array (it.CurrentIndex + 1).toNat with
  | some i =>
    let d := it.Array.Slots.getD i (DatumBase.ofSalt 0)
    (some d,
      { it with
          CurrentIndex := (i : Int)
          CurrentDatumIndex := DatumIndex.make d.GetSalt i })
  | none =>
    (none,
      { it with
          CurrentIndex := (it.Array.MaxCount : Int)
          CurrentDatumIndex := DatumIndex.null })

/-- Gets an iterator pointing to the end of the array
(DataArray::end, lines 206 to 211): a freshly constructed iterator
whose CurrentIndex is then set to MaxCount. -/
def DataArrayBase.endIter (a : DataArrayBase) : DataIteratorBase :=
  { DataIteratorBase.init a with CurrentIndex := (a.MaxCount : Int) }

/-- The iterator equality operator (line 244): compares the array the
iterators operate on, the current index and the current datum index.
The C++ code compares the arrays by address; the embedding carries
the array state by value, so the comparison is state equality, which
for iterators over one and the same array coincides with address
comparison. -/
def DataIteratorBase.iterEq (x y : DataIteratorBase) : Bool :=
  decide (x.Array = y.Array) && x.CurrentIndex == y.CurrentIndex &&
    DatumIndex.eqOp x.CurrentDatumIndex y.CurrentDatumIndex

/-- Runs the iterator until Next signals the end (with fuel to bound
the recursion), collecting each yielded datum together with the
iterator's current datum index at the moment it is yielded. -/
def iterateAux (it : DataIteratorBase) : Nat → List (DatumBase × DatumIndex)
  | 0 => []
  | fuel + 1 =>
    match DataIteratorBase.Next it with
    | (some d, it2) => (d, it2.CurrentDatumIndex) :: iterateAux it2 fuel
    | (none, _) => []

/-- A full iteration pass over a data array: a fresh iterator
advanced until the end sentinel, as begin/operator++ do
(lines 187 to 192 and 240 to 241); MaxCount + 1 steps of fuel always
suffice because every successful Next strictly advances the index. -/
def DataArrayBase.iterate (a : DataArrayBase) : List (DatumBase × DatumIndex) :=
  iterateAux (DataIteratorBase.init a) (a.MaxCount + 1)

/-- The generation counter value after k bumps starting from 0. -/
def saltAfter : Nat → Nat
  | 0 => 0
  | k + 1 => nextSaltValue (saltAfter k)

/-- The state a fresh array of capacity c reaches after n Acquire
calls, written in closed form: slots 0 to n - 1 live with the
successive generation values, everything beyond free. -/
def filledArray (c dsize n : Nat) : DataArrayBase :=
  ⟨c, dsize, 0,
    (List.range n).map (fun k => DatumBase.ofSalt (saltAfter (k + 1)))
      ++ List.replicate (c - n) (DatumBase.ofSalt 0),
    List.replicate n true ++ List.replicate (c - n) false,
    n, n, n, saltAfter n⟩

/-- Packing a 16-bit salt and a 16-bit index gives the 32-bit value
2 ^ 16 * salt + index. -/
theorem DatumIndex.make_eq (s i : Nat) (hs : s < 2 ^ 16) (hi : i < 2 ^ 16) :
    DatumIndex.make s i = ⟨2 ^ 16 * s + i⟩ := by
  unfold DatumIndex.make
  congr 1
  rw [Nat.mod_eq_of_lt hs, Nat.mod_eq_of_lt hi, Nat.shiftLeft_eq,
    Nat.mul_comm s (2 ^ 16), ← Nat.mul_add_lt_is_or hi]
  have : 2 ^ 16 * s + i < 2 ^ 32 := by
    have : 2 ^ 16 * s ≤ 2 ^ 16 * (2 ^ 16 - 1) := by
      exact Nat.mul_le_mul_left _ (by omega)
    norm_num at this ⊢
    omega
  exact Nat.mod_eq_of_lt this

/-- The Salt accessor recovers the packed salt. -/
theorem DatumIndex.Salt_make (s i : Nat) (hs : s < 2 ^ 16) (hi : i < 2 ^ 16) :
    (DatumIndex.make s i).Salt = s := by
  rw [DatumIndex.make_eq s i hs hi]
  show (2 ^ 16 * s + i) >>> 16 % 2 ^ 16 = s
  rw [Nat.shiftRight_eq_div_pow]
  omega

/-- The Index accessor recovers the packed index. -/
theorem DatumIndex.Index_make (s i : Nat) (hs : s < 2 ^ 16) (hi : i < 2 ^ 16) :
    (DatumIndex.make s i).Index = i := by
  rw [DatumIndex.make_eq s i hs hi]
  show ((2 ^ 16 * s + i) &&& 0xFFFF) % 2 ^ 16 = i
  have hmask : (0xFFFF : Nat) = 2 ^ 16 - 1 := by norm_num
  rw [hmask, Nat.and_pow_two_sub_one_eq_mod]
  omega

/-- C3: the (salt, index) constructor packs both 16-bit fields so that
the pure shift/mask accessors Salt and Index recover them exactly. -/
theorem c3_pack_roundtrip (s i : Nat) (hs : s < 2 ^ 16) (hi : i < 2 ^ 16) :
    (DatumIndex.make s i).Salt = s ∧ (DatumIndex.make s i).Index = i :=
  ⟨DatumIndex.Salt_make s i hs hi, DatumIndex.Index_make s i hs hi⟩

/-- Concrete instantiation of c3_pack_roundtrip at salt 5, index 7. -/
theorem c3_pack_roundtrip_witness :
    5 < 2 ^ 16 ∧ 7 < 2 ^ 16 ∧
      ((DatumIndex.make 5 7).Salt = 5 ∧ (DatumIndex.make 5 7).Index = 7) :=
  ⟨by norm_num, by norm_num, c3_pack_roundtrip 5 7 (by norm_num) (by norm_num)⟩

/-- C5: the null handle is the all-ones 32-bit value; the default
constructor and the Null constant both equal it, and handle equality
and inequality are exactly bitwise comparison of the 32-bit value. -/
theorem c5_null_and_bitwise_equality :
    DatumIndex.null.Handle = 0xFFFFFFFF ∧
    DatumIndex.mkNull = DatumIndex.null ∧
    (∀ a b : DatumIndex, DatumIndex.eqOp a b = true ↔ a.Handle = b.Handle) ∧
    (∀ a b : DatumIndex, DatumIndex.neOp a b = true ↔ a.Handle ≠ b.Handle) := by
  refine ⟨rfl, rfl, ?_, ?_⟩
  · intro a b
    simp [DatumIndex.eqOp]
  · intro a b
    simp [DatumIndex.neOp, DatumIndex.eqOp]

/-- C8: converting a handle to bool yields true iff the handle is not
the null sentinel; the default-constructed handle converts to false. -/
theorem c8_bool_conversion :
    (∀ h : DatumIndex, DatumIndex.boolOp h = true ↔ h ≠ DatumIndex.null) ∧
    DatumIndex.boolOp DatumIndex.mkNull = false := by
  constructor
  · intro h
    constructor
    · intro hb he
      simp [DatumIndex.boolOp, DatumIndex.neOp, DatumIndex.eqOp, he] at hb
    · intro hne
      simp only [DatumIndex.boolOp, DatumIndex.neOp, DatumIndex.eqOp,
        Bool.not_eq_true', beq_eq_false_iff_ne, ne_eq]
      intro he
      exact hne (by cases h; cases he; rfl)
  · rfl

/-- C10: the packing constructor applied to salt 0xFFFF and index
0xFFFF yields a handle bitwise equal to Null whose boolean conversion
is false, even though it was not built by the null constructor. -/
theorem c10_make_all_ones_is_null :
    DatumIndex.make 0xFFFF 0xFFFF = DatumIndex.null ∧
    DatumIndex.boolOp (DatumIndex.make 0xFFFF 0xFFFF) = false := by
  exact ⟨by decide, by decide⟩

/-- C1: the checked lookup returns the datum iff the handle's index is
in range, the slot's stored generation equals the handle's salt, and
that generation is nonzero; every other handle yields null, and no
slot outside the array is ever read (the lookup is the total function
just characterised, defined only through in-range list access). -/
theorem c1_checked_lookup (a : DataArrayBase) (h : DatumIndex) (d : DatumBase) :
    a.Get h = some d ↔
      h.Index < a.MaxCount ∧ a.Slots.get? h.Index = some d ∧
        d.GetSalt = h.Salt ∧ d.GetSalt ≠ 0 := by
  unfold DataArrayBase.Get
  split
  · rename_i hlt
    cases hget : a.Slots.get? h.Index with
    | none => simp [hget, hlt]
    | some e =>
      split
      · rename_i e2 hes
        injection hes with hes
        subst hes
        split
        · rename_i hcond
          simp only [DatumBase.IsNull, DatumBase.GetSalt, Bool.and_eq_true,
            Bool.not_eq_true', beq_iff_eq, beq_eq_false_iff_ne, ne_eq] at hcond
          obtain ⟨hnz, hs⟩ := hcond
          simp only [Option.some.injEq, hlt, true_and]
          constructor
          · rintro rfl
            exact ⟨rfl, hs, hnz⟩
          · rintro ⟨rfl, -, -⟩
            rfl
        · rename_i hcond
          simp only [DatumBase.IsNull, DatumBase.GetSalt, Bool.and_eq_true,
            Bool.not_eq_true', beq_iff_eq, beq_eq_false_iff_ne, ne_eq,
            not_and] at hcond
          simp only [Option.some.injEq]
          constructor
          · rintro ⟨⟩
          · rintro ⟨-, rfl, hs, hnz⟩
            exact absurd hs (hcond hnz)
      · rename_i hes
        exact absurd hes (by simp)
  · rename_i hge
    simp only [not_lt] at hge
    constructor
    · rintro ⟨⟩
    · rintro ⟨hlt, -, -, -⟩
      omega

/-- C4: releasing the null handle, an out-of-range handle, or a handle
whose salt no longer matches the slot's stored generation leaves every
field of the allocator state unchanged. -/
theorem c4_release_bad_handle_noop (a : DataArrayBase) (h : DatumIndex)
    (hbad : h = DatumIndex.null ∨ a.MaxCount ≤ h.Index ∨
      (∀ d : DatumBase, a.Slots.get? h.Index = some d → d.GetSalt ≠ h.Salt)) :
    a.Release h = a := by
  unfold DataArrayBase.Release
  split
  · rfl
  · rename_i hnn
    split
    · rfl
    · rename_i hlt
      rcases hbad with hb | hb | hb
      · exact absurd (by simp [hb, DatumIndex.eqOp]) hnn
      · omega
      · cases hget : a.Slots.get? h.Index with
        | none => rfl
        | some d => simp [hget, hb d hget]

/-- Concrete instantiation of c4_release_bad_handle_noop: releasing a
stale handle (salt 2) into a one-slot array whose slot holds salt 1
changes nothing. -/
theorem c4_release_bad_handle_noop_witness :
    (DatumIndex.make 2 0 = DatumIndex.null ∨
      (DataArrayBase.mk 1 8 0 [DatumBase.ofSalt 1] [true] 1 1 1 1).MaxCount ≤
        (DatumIndex.make 2 0).Index ∨
      (∀ d : DatumBase,
        (DataArrayBase.mk 1 8 0 [DatumBase.ofSalt 1] [true] 1 1 1 1).Slots.get?
            (DatumIndex.make 2 0).Index = some d →
          d.GetSalt ≠ (DatumIndex.make 2 0).Salt)) ∧
    (DataArrayBase.mk 1 8 0 [DatumBase.ofSalt 1] [true] 1 1 1 1).Release
        (DatumIndex.make 2 0) =
      DataArrayBase.mk 1 8 0 [DatumBase.ofSalt 1] [true] 1 1 1 1 :=
  ⟨Or.inr (Or.inr (by decide)),
    c4_release_bad_handle_noop _ _ (Or.inr (Or.inr (by decide)))⟩

/-- C6: the unchecked accessor computes Data + Index * DatumSize from
the handle's low 16 bits alone, with no bounds or generation check:
the same formula holds for every handle, in particular when the index
is at or beyond MaxCount. -/
theorem c6_unchecked_address (a : DataArrayBase) (h : DatumIndex) :
    a.GetAddress h = a.Data + h.Handle % 2 ^ 16 * a.DatumSize ∧
      (a.MaxCount ≤ h.Index → a.GetAddress h = a.Data + h.Index * a.DatumSize) := by
  constructor
  · have hmask : (0xFFFF : Nat) = 2 ^ 16 - 1 := by norm_num
    rw [DataArrayBase.GetAddress, DatumIndex.Index, hmask,
      Nat.and_pow_two_sub_one_eq_mod, Nat.mod_mod]
  · intro _
    rfl

/-- Concrete instantiation of c6_unchecked_address at an out-of-range
handle: index 7 in an array of capacity 2. -/
theorem c6_unchecked_address_witness :
    ((DataArrayBase.mk 2 8 100 [] [] 0 0 0 0).GetAddress (DatumIndex.make 1 7) =
        100 + (DatumIndex.make 1 7).Handle % 2 ^ 16 * 8) ∧
    ((DataArrayBase.mk 2 8 100 [] [] 0 0 0 0).MaxCount ≤ (DatumIndex.make 1 7).Index →
      (DataArrayBase.mk 2 8 100 [] [] 0 0 0 0).GetAddress (DatumIndex.make 1 7) =
        100 + (DatumIndex.make 1 7).Index * 8) :=
  c6_unchecked_address (DataArrayBase.mk 2 8 100 [] [] 0 0 0 0) (DatumIndex.make 1 7)

/-- C9: a freshly constructed iterator is positioned before the first
slot: current index -1, current datum handle null, bound to the given
array. -/
theorem c9_fresh_iterator_position (a : DataArrayBase) :
    (DataIteratorBase.init a).CurrentIndex = -1 ∧
    (DataIteratorBase.init a).CurrentDatumIndex = DatumIndex.null ∧
    (DataIteratorBase.init a).Array = a :=
  ⟨rfl, rfl, rfl⟩

/-- Handle equality as a boolean test agrees with propositional
equality of handles. -/
theorem DatumIndex.eqOp_iff (a b : DatumIndex) :
    DatumIndex.eqOp a b = true ↔ a = b := by
  cases a
  cases b
  simp [DatumIndex.eqOp]

/-- C7: the end iterator's current index is MaxCount (and its handle
is null); iterator equality compares bound array, current index and
current handle; an iterator whose Next signalled the end compares
equal to the end iterator of its array. -/
theorem c7_end_iterator (a : DataArrayBase) (x y : DataIteratorBase) :
    (a.endIter.CurrentIndex = (a.MaxCount : Int) ∧
      a.endIter.CurrentDatumIndex = DatumIndex.null) ∧
    (DataIteratorBase.iterEq x y = true ↔
      x.Array = y.Array ∧ x.CurrentIndex = y.CurrentIndex ∧
        x.CurrentDatumIndex = y.CurrentDatumIndex) ∧
    (x.Array = a → (DataIteratorBase.Next x).1 = none →
      DataIteratorBase.iterEq (DataIteratorBase.Next x).2 a.endIter = true) := by
  refine ⟨⟨rfl, rfl⟩, ?_, ?_⟩
  · simp [DataIteratorBase.iterEq, DatumIndex.eqOp_iff, and_assoc]
  · intro hxa hnone
    subst hxa
    unfold DataIteratorBase.Next at hnone ⊢
    cases hf : findLiveFrom x.Array (x.CurrentIndex + 1).toNat with
    | some i =>
      rw [hf] at hnone
      exact absurd hnone (by simp)
    | none =>
      simp [DataIteratorBase.iterEq, DataArrayBase.endIter,
        DataIteratorBase.init, DatumIndex.eqOp]

/-- Concrete instantiation of c7_end_iterator: a fresh iterator over
an empty one-slot array walks straight off the end and equals the end
iterator. -/
theorem c7_end_iterator_witness :
    (DataIteratorBase.init (freshArray 1 8)).Array = freshArray 1 8 ∧
    (DataIteratorBase.Next (DataIteratorBase.init (freshArray 1 8))).1 = none ∧
    DataIteratorBase.iterEq
      (DataIteratorBase.Next (DataIteratorBase.init (freshArray 1 8))).2
      ((freshArray 1 8).endIter) = true :=
  ⟨rfl, by decide,
    (c7_end_iterator (freshArray 1 8) (DataIteratorBase.init (freshArray 1 8))
      (DataIteratorBase.init (freshArray 1 8))).2.2 rfl (by decide)⟩

/-- The bumped generation counter stays below 2 ^ 16. -/
theorem nextSaltValue_lt (s : Nat) : nextSaltValue s < 2 ^ 16 := by
  unfold nextSaltValue
  have h : (2 : Nat) ^ 16 = 65536 := by norm_num
  split <;> omega

/-- The bumped generation counter is never zero. -/
theorem nextSaltValue_ne_zero (s : Nat) : nextSaltValue s ≠ 0 := by
  unfold nextSaltValue
  split <;> omega

/-- Every generation counter value stays below 2 ^ 16. -/
theorem saltAfter_lt (k : Nat) : saltAfter k < 2 ^ 16 := by
  cases k with
  | zero => norm_num [saltAfter]
  | succ k => exact nextSaltValue_lt _

/-- Every stamped generation value is nonzero. -/
theorem saltAfter_succ_ne_zero (k : Nat) : saltAfter (k + 1) ≠ 0 :=
  nextSaltValue_ne_zero _

/-- In the filled state, the live-bit scan starting below n finds
exactly its start position. -/
theorem findLive_filled_lt (c d n p : Nat) (hp : p < n) :
    findLiveFrom (filledArray c d n) p = some p := by
  show (((List.replicate n true ++ List.replicate (c - n) false).drop p).findIdx?
      (fun b => b)).map (· + p) = some p
  have hsplit : List.replicate n true
      = List.replicate p true ++ List.replicate (n - p) true := by
    rw [← List.replicate_add]
    congr 1
    omega
  rw [hsplit, List.append_assoc, List.drop_left' (by simp)]
  obtain ⟨q, hq⟩ : ∃ q, n - p = q + 1 := ⟨n - p - 1, by omega⟩
  rw [hq, List.replicate_succ, List.cons_append, List.findIdx?_cons]
  simp

/-- In the filled state, the live-bit scan starting at or beyond n
finds nothing. -/
theorem findLive_filled_ge (c d n p : Nat) (hp : n ≤ p) :
    findLiveFrom (filledArray c d n) p = none := by
  show (((List.replicate n true ++ List.replicate (c - n) false).drop p).findIdx?
      (fun b => b)).map (· + p) = none
  have hdrop : (List.replicate n true ++ List.replicate (c - n) false).drop p
      = (List.replicate (c - n) false).drop (p - n) := by
    have h1 : (List.replicate n true ++ List.replicate (c - n) false).drop p
        = (List.replicate n true ++ List.replicate (c - n) false).drop
            (n + (p - n)) := by
      rw [show n + (p - n) = p from by omega]
    rw [h1, ← List.drop_drop, List.drop_left' (by simp)]
  have hnone : ((List.replicate (c - n) false).drop (p - n)).findIdx?
      (fun b => b) = none :=
    List.findIdx?_eq_none_iff.mpr (fun x hx => by
      simp [List.eq_of_mem_replicate (List.mem_of_mem_drop hx)])
  rw [hdrop, hnone]
  rfl

/-- In the filled state, slot p below n holds the p-th stamped
generation. -/
theorem filled_slot (c d n p : Nat) (hp : p < n) :
    (filledArray c d n).Slots[p]? = some (DatumBase.ofSalt (saltAfter (p + 1))) := by
  show ((List.range n).map (fun k => DatumBase.ofSalt (saltAfter (k + 1)))
      ++ List.replicate (c - n) (DatumBase.ofSalt 0))[p]?
    = some (DatumBase.ofSalt (saltAfter (p + 1)))
  rw [List.getElem?_append_left (by simpa using hp)]
  simp [List.getElem?_range hp]

/-- Absorbing a matching head into a preceding replicate block. -/
theorem replicate_append_cons {α : Type} (n : Nat) (a : α) (l : List α) :
    List.replicate n a ++ a :: l = List.replicate (n + 1) a ++ l := by
  rw [List.replicate_succ' n, List.append_assoc]
  rfl

/-- Acquire on the filled state with n live slots (n below capacity)
allocates slot n, stamps the next generation and returns its packed
handle, producing the filled state with n + 1 live slots. -/
theorem acquire_filled (c d n : Nat) (hn : n < c) :
    (filledArray c d n).Acquire =
      (DatumIndex.make (saltAfter (n + 1)) n, filledArray c d (n + 1)) := by
  obtain ⟨m, hm⟩ : ∃ m, c - n = m + 1 := ⟨c - n - 1, by omega⟩
  have hm2 : c - (n + 1) = m := by omega
  have hfrom : findFreeFrom (filledArray c d n).ActiveIndices
      (filledArray c d n).NextIndex = some n := by
    show (((List.replicate n true ++ List.replicate (c - n) false).drop n).findIdx?
        (fun b => !b)).map (· + n) = some n
    rw [List.drop_left' (by simp), hm, List.replicate_succ, List.findIdx?_cons]
    simp
  have hfind : findFreeSlot (filledArray c d n).ActiveIndices
      (filledArray c d n).NextIndex = some n := by
    unfold findFreeSlot
    rw [hfrom]
  have hslots : ((List.range n).map (fun k => DatumBase.ofSalt (saltAfter (k + 1)))
        ++ List.replicate (c - n) (DatumBase.ofSalt 0)).set n
        (DatumBase.ofSalt (nextSaltValue (saltAfter n)))
      = (List.range (n + 1)).map (fun k => DatumBase.ofSalt (saltAfter (k + 1)))
        ++ List.replicate (c - (n + 1)) (DatumBase.ofSalt 0) := by
    rw [List.set_append_right _ _ (by simp), hm, hm2]
    simp only [List.length_map, List.length_range, Nat.sub_self,
      List.replicate_succ, List.set_cons_zero]
    rw [List.range_succ, List.map_append, List.append_assoc]
    rfl
  have hbits : (List.replicate n true ++ List.replicate (c - n) false).set n true
      = List.replicate (n + 1) true ++ List.replicate (c - (n + 1)) false := by
    rw [List.set_append_right _ _ (by simp), hm]
    simp only [List.length_replicate, Nat.sub_self]
    rw [List.replicate_succ, List.set_cons_zero, replicate_append_cons, hm2]
  unfold DataArrayBase.Acquire
  rw [hfind]
  simp only [filledArray]
  rw [Prod.mk.injEq]
  refine ⟨rfl, ?_⟩
  rw [DataArrayBase.mk.injEq]
  exact ⟨rfl, rfl, rfl, hslots, hbits, rfl,
    Nat.max_eq_right (Nat.le_succ n), rfl, rfl⟩

/-- n successive Acquire calls on a fresh array of capacity at least n
produce exactly the filled state with n live slots. -/
theorem acquireN_fresh (c d : Nat) :
    ∀ n, n ≤ c → (freshArray c d).acquireN n = filledArray c d n := by
  intro n
  induction n with
  | zero =>
    intro _
    show freshArray c d = filledArray c d 0
    simp [freshArray, filledArray, saltAfter]
  | succ n ih =>
    intro hn
    show ((freshArray c d).acquireN n).Acquire.2 = filledArray c d (n + 1)
    rw [ih (by omega), acquire_filled c d n (by omega)]

/-- Running the iterator over the filled state from position p - 1
yields exactly the live slots p to n - 1 in order, each with its
datum and its packed live handle. -/
theorem iterateAux_filled (c d n : Nat) (hn : n ≤ c) (hc : c ≤ 2 ^ 16) :
    ∀ (m p : Nat) (h0 : DatumIndex) (fuel : Nat), p + m = n → m < fuel →
      iterateAux ⟨filledArray c d n, h0, (p : Int) - 1⟩ fuel =
        (List.range' p m).map (fun k =>
          (DatumBase.ofSalt (saltAfter (k + 1)),
            DatumIndex.make (saltAfter (k + 1)) k)) := by
  intro m
  induction m with
  | zero =>
    intro p h0 fuel hpm hfuel
    obtain ⟨f, rfl⟩ : ∃ f, fuel = f + 1 := ⟨fuel - 1, by omega⟩
    have hnext : DataIteratorBase.Next ⟨filledArray c d n, h0, (p : Int) - 1⟩ =
        (none, ⟨filledArray c d n, DatumIndex.null,
          ((filledArray c d n).MaxCount : Int)⟩) := by
      simp only [DataIteratorBase.Next]
      rw [show ((p : Int) - 1 + 1).toNat = p from by omega,
        findLive_filled_ge c d n p (by omega)]
    simp only [iterateAux, hnext]
    simp
  | succ m ih =>
    intro p h0 fuel hpm hfuel
    obtain ⟨f, rfl⟩ : ∃ f, fuel = f + 1 := ⟨fuel - 1, by omega⟩
    have hnext : DataIteratorBase.Next ⟨filledArray c d n, h0, (p : Int) - 1⟩ =
        (some (DatumBase.ofSalt (saltAfter (p + 1))),
          ⟨filledArray c d n, DatumIndex.make (saltAfter (p + 1)) p,
            (p : Int)⟩) := by
      simp only [DataIteratorBase.Next]
      rw [show ((p : Int) - 1 + 1).toNat = p from by omega,
        findLive_filled_lt c d n p (by omega)]
      simp only [List.getD_eq_getElem?_getD, filled_slot c d n p (by omega),
        Option.getD_some, DatumBase.GetSalt, DatumBase.ofSalt]
      rw [Nat.mod_eq_of_lt (saltAfter_lt (p + 1))]
    simp only [iterateAux, hnext]
    rw [List.range'_succ]
    simp only [List.map_cons]
    congr 1
    rw [show (p : Int) = ((p + 1 : Nat) : Int) - 1 from by omega]
    exact ih (p + 1) _ f (by omega) (by omega)

/-- C2: after n successful Acquire calls on a fresh array (and no
Release), a full iteration yields exactly n datum references whose
handle indices are 0 to n - 1 in strictly increasing order, and each
yielded handle is live: the checked lookup on it returns exactly the
yielded datum. -/
theorem c2_iterate_after_acquires (c dsize n : Nat) (hn : n ≤ c) (hc : c ≤ 2 ^ 16) :
    ((freshArray c dsize).acquireN n).iterate.length = n ∧
    ((freshArray c dsize).acquireN n).iterate.map (fun e => e.2.Index)
      = List.range n ∧
    ∀ e ∈ ((freshArray c dsize).acquireN n).iterate,
      ((freshArray c dsize).acquireN n).Get e.2 = some e.1 := by
  rw [acquireN_fresh c dsize n hn]
  have hiter : (filledArray c dsize n).iterate =
      (List.range' 0 n).map (fun k =>
        (DatumBase.ofSalt (saltAfter (k + 1)),
          DatumIndex.make (saltAfter (k + 1)) k)) := by
    unfold DataArrayBase.iterate DataIteratorBase.init
    exact iterateAux_filled c dsize n hn hc n 0 DatumIndex.null (c + 1)
      (by omega) (by omega)
  rw [hiter]
  refine ⟨by simp, ?_, ?_⟩
  · rw [List.map_map, List.range_eq_range']
    rw [List.map_congr_left (g := fun k => k) ?_]
    · exact List.map_id' _
    · intro k hk
      obtain ⟨i, hi, rfl⟩ := List.mem_range'.mp hk
      have hik : 0 + 1 * i < n := by omega
      show (DatumIndex.make (saltAfter (0 + 1 * i + 1)) (0 + 1 * i)).Index = 0 + 1 * i
      exact DatumIndex.Index_make _ _ (saltAfter_lt _) (by omega)
  · intro e he
    obtain ⟨k, hk, rfl⟩ := List.mem_map.mp he
    obtain ⟨i, hi, rfl⟩ := List.mem_range'.mp hk
    have hklt : 0 + 1 * i < n := by omega
    have hσlt := saltAfter_lt (0 + 1 * i + 1)
    have hknum : 0 + 1 * i < 2 ^ 16 := by omega
    unfold DataArrayBase.Get
    rw [DatumIndex.Index_make _ _ hσlt hknum, DatumIndex.Salt_make _ _ hσlt hknum]
    rw [show (filledArray c dsize n).MaxCount = c from rfl, if_pos (by omega)]
    rw [List.get?_eq_getElem?, filled_slot c dsize n _ hklt]
    simp only [DatumBase.IsNull, DatumBase.GetSalt, DatumBase.ofSalt]
    have h1 := saltAfter_lt (0 + 1 * i + 1)
    have h2 := saltAfter_succ_ne_zero (0 + 1 * i)
    simp only [Nat.mod_eq_of_lt h1]
    simp
    simpa using h2

/-- Concrete instantiation of c2_iterate_after_acquires: two acquires
on a fresh three-slot array. -/
theorem c2_iterate_after_acquires_witness :
    (2 ≤ 3 ∧ (3 : Nat) ≤ 2 ^ 16) ∧
    (((freshArray 3 8).acquireN 2).iterate.length = 2 ∧
      ((freshArray 3 8).acquireN 2).iterate.map (fun e => e.2.Index)
        = List.range 2 ∧
      ∀ e ∈ ((freshArray 3 8).acquireN 2).iterate,
        ((freshArray 3 8).acquireN 2).Get e.2 = some e.1) :=
  ⟨⟨by norm_num, by norm_num⟩,
    c2_iterate_after_acquires 3 8 2 (by norm_num) (by norm_num)⟩

end Blam
